import Mathlib

/-!
Shallow embedding of the benchmark repository's core logic:

* `src/src/hashmap_benchmarks.cpp` — data generators (`GenerateAscendingData`,
  `GenerateDescendingData`, `GenerateRandomData`) and the generic
  `histogramSort` routine parameterized over a hash-map abstraction.
* `src/src/hashmap_random_access.cpp` — the random-access engine's generator
  (distribution bound `size * 2`) and the measured lookup loop
  (`BM_RandomAccess`).

C++ `std::vector<int>` is modelled as `List Int`; the injected hash-map
abstraction is modelled as an association list of (key, count) entries, with
the implementation-defined iteration order captured by quantifying over
permutations of the canonical (first-insertion-order) entry list.
-/

namespace Bench

/-! ### Data generators (hashmap_benchmarks.cpp lines 30-61) -/

/-- Model of `GenerateAscendingData`: `std::iota(data.begin(), data.end(), 0)` over a
vector of `size` ints produces `0, 1, ..., size-1`. -/
def GenerateAscendingData (size : Nat) : List Int :=
  (List.range size).map Int.ofNat

/-- Model of `GenerateDescendingData`: `std::iota(data.rbegin(), data.rend(), 0)` fills
the vector from the back with `0, 1, ...`, i.e. the vector read forwards is
`size-1, size-2, ..., 0`. -/
def GenerateDescendingData (size : Nat) : List Int :=
  ((List.range size).map Int.ofNat).reverse

/-- Ambient nondeterminism available to a C++ function (e.g. what
`std::random_device` or a global generator would supply).  The generators in
this repository construct their engine from the literal seed 42 and never
consult it; passing it explicitly lets determinism be stated. -/
structure EntropyEnv where
  source : Nat → Nat

/-- The draw loop `for (auto& val : data) { val = dis(gen); }`: `size` draws
from a distribution `dis` threaded through generator state `g`. -/
def genLoop {σ : Type} (dis : σ → Int × σ) : Nat → σ → List Int
  | 0, _ => []
  | n + 1, g => (dis g).1 :: genLoop dis n (dis g).2

/-- Model of `GenerateRandomData` from `hashmap_benchmarks.cpp` (lines 53-61):
`std::mt19937 gen(42); std::uniform_int_distribution<> dis(0, size);` then
`size` draws.  `mtFromSeed` abstracts mt19937 construction from a seed (the
code always passes 42); `dis b` abstracts `uniform_int_distribution<>(0, b)`
applied to the generator state.  The `EntropyEnv` is ignored: the seed is
hard-coded. -/
def GenerateRandomData {σ : Type} (_env : EntropyEnv) (mtFromSeed : Nat → σ)
    (dis : Nat → σ → Int × σ) (size : Nat) : List Int :=
  genLoop (dis size) size (mtFromSeed 42)

/-- Model of `GenerateRandomData` from `hashmap_random_access.cpp` (lines 13-21): same
shape but the distribution is `uniform_int_distribution<>(0, size * 2)`. -/
def GenerateRandomDataRA {σ : Type} (_env : EntropyEnv) (mtFromSeed : Nat → σ)
    (dis : Nat → σ → Int × σ) (size : Nat) : List Int :=
  genLoop (dis (size * 2)) size (mtFromSeed 42)

/-- The distribution upper bound used by the histogram-benchmark generator:
`uniform_int_distribution<> dis(0, static_cast<int>(size))`. -/
def benchRandomBound (size : Nat) : Nat := size

/-- The distribution upper bound used by the random-access generator:
`uniform_int_distribution<> dis(0, static_cast<int>(size) * 2)`. -/
def raRandomBound (size : Nat) : Nat := size * 2

/-- A conforming draw function whose every output attains the distribution's
upper bound (a value inside the closed range `[0, b]`, hence a possible draw
of `uniform_int_distribution<>(0, b)`), over trivial generator state. -/
def disTop (b : Nat) (g : Unit) : Int × Unit := ((b : Int), g)

/-! ### Histogram sort (hashmap_benchmarks.cpp lines 76-92)

The counting loop `for (int val : data) sorted[val]++;` is modelled on an
association list kept in first-insertion order; any correct map abstraction
holds exactly these (key, count) entries, in some implementation-defined
iteration order, i.e. in some permutation of this list. -/

/-- Model of `sorted[val]++`: increment `val`'s count, inserting with count 1 when the
key is absent (a fresh `int` value-initializes to 0 and is incremented). -/
def bump : List (Int × Nat) → Int → List (Int × Nat)
  | [], k => [(k, 1)]
  | (k', c) :: rest, k =>
      if k' = k then (k', c + 1) :: rest else (k', c) :: bump rest k

/-- The counting loop over the input sequence, left to right. -/
def histLoop : List (Int × Nat) → List Int → List (Int × Nat)
  | m, [] => m
  | m, v :: rest => histLoop (bump m v) rest

/-- The frequency map built by the counting phase of `histogramSort`, with
entries in first-insertion order. -/
def histAssoc (data : List Int) : List (Int × Nat) :=
  histLoop [] data

/-- Keys stored in the frequency map. -/
def keysOf (es : List (Int × Nat)) : List Int :=
  es.map Prod.fst

/-- Assoc-list lookup: the count stored for `k`, when present. -/
def lookupC : List (Int × Nat) → Int → Option Nat
  | [], _ => none
  | (k', c) :: rest, k => if k' = k then some c else lookupC rest k

/-- Sum of all stored counts. -/
def sumCounts (es : List (Int × Nat)) : Nat :=
  (es.map Prod.snd).sum

/-- The inner reconstruction loop
`for (int j = 0; j < i->second; ++j) { data[index++] = i->first; }`:
write `c` copies of `k` at consecutive indices.  Returns the updated vector,
the final index, and whether every single write happened at an index strictly
below the vector's length (`data[index]` in bounds at the moment of the
write). -/
def writeRun (data : List Int) (idx : Nat) (k : Int) : Nat → List Int × Nat × Bool
  | 0 => (data, idx, true)
  | c + 1 =>
      let r := writeRun (data.set idx k) (idx + 1) k c
      (r.1, r.2.1, decide (idx < data.length) && r.2.2)

/-- The outer reconstruction loop
`for (auto i = sorted.begin(); i != sorted.end(); i++)` walking the map's
iteration order, threading the vector, the index, and the in-bounds flag. -/
def writeEntries (data : List Int) (idx : Nat) : List (Int × Nat) → List Int × Nat × Bool
  | [] => (data, idx, true)
  | (k, c) :: rest =>
      let r := writeRun data idx k c
      let r' := writeEntries r.1 r.2.1 rest
      (r'.1, r'.2.1, r.2.2 && r'.2.2)

/-- Model of `histogramSort`, with the map abstraction's iteration order made explicit:
`entries` is the (key, count) sequence the map's iterators deliver (a
permutation of `histAssoc data` for any correct map implementation).  The
input vector is overwritten in place and returned. -/
def histogramSort (entries : List (Int × Nat)) (data : List Int) : List Int :=
  (writeEntries data 0 entries).1

/-! ### Random-access engine (hashmap_random_access.cpp lines 23-61) -/

/-- Model of `map[val] = val` insert-or-assign on an association list. -/
def mapInsert : List (Int × Int) → Int → Int → List (Int × Int)
  | [], k, v => [(k, v)]
  | (k', v') :: rest, k, v =>
      if k' = k then (k', v) :: rest else (k', v') :: mapInsert rest k v

/-- The setup loop `for (int val : data) { map[val] = val; }`. -/
def buildMap (data : List Int) : List (Int × Int) :=
  data.foldl (fun m v => mapInsert m v v) []

/-- Model of `map.find(key)`: point lookup, `none` on a miss. -/
def mapFind : List (Int × Int) → Int → Option Int
  | [], _ => none
  | (k', v') :: rest, k => if k' = k then some v' else mapFind rest k

/-- One cursor advance of the measured loop, modelling
`lookup_idx++; if (lookup_idx >= lookups.size()) lookup_idx = 0;`. -/
def advanceCursor (n : Nat) (idx : Nat) : Nat :=
  if idx + 1 ≥ n then 0 else idx + 1

/-- Cursor value at the start of iteration `k` of the measured loop (the
cursor starts at 0 and is advanced once per iteration). -/
def cursorAfter (n : Nat) : Nat → Nat
  | 0 => 0
  | k + 1 => advanceCursor n (cursorAfter n k)

/-- The key looked up at iteration `t` of the measured loop, modelling
`int key = lookups[lookup_idx];`. -/
def measuredKey (lookups : List Int) (t : Nat) : Int :=
  lookups.getD (cursorAfter lookups.length t) 0

/-! ### Helper lemmas: generators -/

theorem genLoop_length {σ : Type} (dis : σ → Int × σ) :
    ∀ (n : Nat) (g : σ), (genLoop dis n g).length = n := by
  intro n
  induction n with
  | zero => intro g; rfl
  | succ n ih => intro g; simp [genLoop, ih]

theorem genLoop_mem_bounds {σ : Type} (dis : σ → Int × σ) (b : Int)
    (hd : ∀ g, 0 ≤ (dis g).1 ∧ (dis g).1 ≤ b) :
    ∀ (n : Nat) (g : σ), ∀ v ∈ genLoop dis n g, 0 ≤ v ∧ v ≤ b := by
  intro n
  induction n with
  | zero => intro g v hv; cases hv
  | succ n ih =>
      intro g v hv
      rcases List.mem_cons.mp hv with hv | hv
      · subst hv; exact hd g
      · exact ih _ v hv

theorem disTop_bounds (b : Nat) : ∀ g, 0 ≤ (disTop b g).1 ∧ (disTop b g).1 ≤ (b : Int) := by
  intro g
  simp [disTop]

/-- Claim C9: under the ascending policy, the generated sequence has length
`N`, its element at each position `i < N` equals `i`, and `N = 0` yields the
empty sequence. -/
theorem generateAscending_spec (n : Nat) :
    (GenerateAscendingData n).length = n ∧
    (∀ i, i < n → (GenerateAscendingData n).getD i 0 = (i : Int)) ∧
    GenerateAscendingData 0 = [] := by
  have hlen : (GenerateAscendingData n).length = n := by
    simp only [GenerateAscendingData, List.length_map, List.length_range]
  refine ⟨hlen, ?_, rfl⟩
  intro i hi
  rw [List.getD_eq_getElem _ _ (by omega)]
  simp only [GenerateAscendingData, List.getElem_map, List.getElem_range]
  rfl

/-- Witness for C9 at `N = 3`, `i = 1`. -/
theorem generateAscending_spec_witness :
    (1 : Nat) < 3 ∧ (GenerateAscendingData 3).getD 1 0 = (1 : Int) :=
  ⟨by decide, (generateAscending_spec 3).2.1 1 (by decide)⟩

/-- Claim C10: under the descending policy, the generated sequence has length
`N` and its element at each position `i < N` equals `N - 1 - i`. -/
theorem generateDescending_spec (n : Nat) :
    (GenerateDescendingData n).length = n ∧
    (∀ i, i < n → (GenerateDescendingData n).getD i 0 = ((n - 1 - i : Nat) : Int)) := by
  have hlen : (GenerateDescendingData n).length = n := by
    simp only [GenerateDescendingData, List.length_reverse, List.length_map,
      List.length_range]
  refine ⟨hlen, ?_⟩
  intro i hi
  rw [List.getD_eq_getElem _ _ (by omega)]
  simp only [GenerateDescendingData]
  rw [List.getElem_reverse]
  simp only [List.getElem_map, List.getElem_range, List.length_map, List.length_range]
  rfl

/-- Witness for C10 at `N = 4`, `i = 1`. -/
theorem generateDescending_spec_witness :
    (1 : Nat) < 4 ∧ (GenerateDescendingData 4).getD 1 0 = ((4 - 1 - 1 : Nat) : Int) :=
  ⟨by decide, (generateDescending_spec 4).2 1 (by decide)⟩

/-- Claim C5: the random generation policy is a deterministic function of the
(hard-coded) seed and `N`: two invocations with the same `N` — whatever the
ambient entropy available to each of them — produce identical sequences,
namely the draws obtained from a generator seeded with 42. -/
theorem generateRandom_deterministic {σ : Type} (e1 e2 : EntropyEnv)
    (mtFromSeed : Nat → σ) (dis : Nat → σ → Int × σ) (n : Nat) :
    GenerateRandomData e1 mtFromSeed dis n = GenerateRandomData e2 mtFromSeed dis n ∧
    GenerateRandomData e1 mtFromSeed dis n = genLoop (dis n) n (mtFromSeed 42) :=
  ⟨rfl, rfl⟩

/-- Counterexample to claim C3: the random-access engine's generator draws
from `uniform_int_distribution<>(0, size * 2)`, not `(0, size)`.  With a
conforming draw function (`disTop` always returns the distribution's upper
bound, a legal value of a uniform draw over `[0, bound]`), the sequence
generated for `N = 1` contains the value 2, which lies outside `[0, N]`. -/
theorem raGenerator_exceeds_claimed_bound :
    raRandomBound 1 = 2 ∧
    GenerateRandomDataRA ⟨fun _ => 0⟩ (fun _ => ()) disTop 1 = [2] ∧
    ¬ ((2 : Int) ≤ 1) := by
  refine ⟨rfl, rfl, by decide⟩

/-- Claim C3 (amended): each engine's random generation policy produces `N`
integers from a generator seeded with the fixed literal 42; the
histogram-benchmark engine draws from the inclusive range `[0, N]`, while the
random-access engine draws from the inclusive range `[0, 2N]`. -/
theorem generateRandom_bounds {σ : Type} (env : EntropyEnv) (mtFromSeed : Nat → σ)
    (dis : Nat → σ → Int × σ) (size : Nat)
    (hd : ∀ b g, 0 ≤ (dis b g).1 ∧ (dis b g).1 ≤ (b : Int)) :
    (GenerateRandomData env mtFromSeed dis size).length = size ∧
    (∀ v ∈ GenerateRandomData env mtFromSeed dis size,
        0 ≤ v ∧ v ≤ (benchRandomBound size : Int)) ∧
    GenerateRandomData env mtFromSeed dis size =
      genLoop (dis (benchRandomBound size)) size (mtFromSeed 42) ∧
    (GenerateRandomDataRA env mtFromSeed dis size).length = size ∧
    (∀ v ∈ GenerateRandomDataRA env mtFromSeed dis size,
        0 ≤ v ∧ v ≤ (raRandomBound size : Int)) ∧
    GenerateRandomDataRA env mtFromSeed dis size =
      genLoop (dis (raRandomBound size)) size (mtFromSeed 42) := by
  refine ⟨genLoop_length _ _ _, ?_, rfl, genLoop_length _ _ _, ?_, rfl⟩
  · exact genLoop_mem_bounds (dis size) _ (hd size) size (mtFromSeed 42)
  · exact genLoop_mem_bounds (dis (size * 2)) _ (hd (size * 2)) size (mtFromSeed 42)

/-- Witness for the amended C3 at `size = 2` with the conforming draw
function `disTop`. -/
theorem generateRandom_bounds_witness :
    (GenerateRandomData ⟨fun _ => 0⟩ (fun _ => ()) disTop 2).length = 2 ∧
    (GenerateRandomDataRA ⟨fun _ => 0⟩ (fun _ => ()) disTop 2).length = 2 :=
  ⟨(generateRandom_bounds ⟨fun _ => 0⟩ (fun _ => ()) disTop 2
      (fun b => disTop_bounds b)).1,
   (generateRandom_bounds ⟨fun _ => 0⟩ (fun _ => ()) disTop 2
      (fun b => disTop_bounds b)).2.2.2.1⟩

/-! ### Helper lemmas: the frequency map -/

/-- The count stored for `x`, read through the default 0 (absent keys count
as zero occurrences). -/
def countOf (es : List (Int × Nat)) (x : Int) : Nat :=
  (lookupC es x).getD 0

theorem keysOf_bump (m : List (Int × Nat)) (k x : Int) :
    x ∈ keysOf (bump m k) ↔ x ∈ keysOf m ∨ x = k := by
  induction m with
  | nil => simp [bump, keysOf]
  | cons p rest ih =>
      obtain ⟨k', c⟩ := p
      by_cases h : k' = k
      · subst h
        simp [bump, keysOf]
        tauto
      · simp only [bump, if_neg h, keysOf, List.map_cons, List.mem_cons] at ih ⊢
        rw [ih]
        tauto

theorem nodup_keysOf_bump (m : List (Int × Nat)) (k : Int)
    (h : (keysOf m).Nodup) : (keysOf (bump m k)).Nodup := by
  induction m with
  | nil => simp [bump, keysOf]
  | cons p rest ih =>
      obtain ⟨k', c⟩ := p
      simp only [keysOf, List.map_cons, List.nodup_cons] at h
      by_cases hk : k' = k
      · subst hk
        simpa [bump, keysOf, List.nodup_cons] using h
      · simp only [bump, if_neg hk, keysOf, List.map_cons, List.nodup_cons]
        refine ⟨?_, ih h.2⟩
        intro hm
        rcases (keysOf_bump rest k k').mp hm with h1 | h1
        · exact h.1 h1
        · exact hk h1

theorem countOf_bump (m : List (Int × Nat)) (k x : Int) :
    countOf (bump m k) x = countOf m x + (if k = x then 1 else 0) := by
  induction m with
  | nil =>
      by_cases h : k = x
      · subst h; simp [bump, countOf, lookupC]
      · simp [bump, countOf, lookupC, h]
  | cons p rest ih =>
      obtain ⟨k', c⟩ := p
      by_cases hk : k' = k
      · subst hk
        by_cases hx : k' = x
        · subst hx
          simp [bump, countOf, lookupC]
        · simp [bump, countOf, lookupC, hx]
      · by_cases hx : k' = x
        · have hkx : ¬ k = x := fun h => hk (hx.trans h.symm)
          simp [bump, if_neg hk, countOf, lookupC, if_pos hx, hkx]
        · simp only [bump, if_neg hk, countOf, lookupC, if_neg hx] at ih ⊢
          exact ih

theorem sumCounts_bump (m : List (Int × Nat)) (k : Int) :
    sumCounts (bump m k) = sumCounts m + 1 := by
  induction m with
  | nil => simp [bump, sumCounts]
  | cons p rest ih =>
      obtain ⟨k', c⟩ := p
      by_cases hk : k' = k
      · subst hk
        simp [bump, sumCounts]
        omega
      · simp only [bump, if_neg hk, sumCounts, List.map_cons, List.sum_cons] at ih ⊢
        omega

theorem keysOf_histLoop (l : List Int) :
    ∀ (m : List (Int × Nat)) (x : Int),
      x ∈ keysOf (histLoop m l) ↔ x ∈ keysOf m ∨ x ∈ l := by
  induction l with
  | nil => intro m x; simp [histLoop]
  | cons v rest ih =>
      intro m x
      simp only [histLoop]
      rw [ih, keysOf_bump]
      simp only [List.mem_cons]
      tauto

theorem nodup_keysOf_histLoop (l : List Int) :
    ∀ m : List (Int × Nat), (keysOf m).Nodup → (keysOf (histLoop m l)).Nodup := by
  induction l with
  | nil => intro m h; exact h
  | cons v rest ih => intro m h; exact ih _ (nodup_keysOf_bump m v h)

theorem countOf_histLoop (l : List Int) :
    ∀ (m : List (Int × Nat)) (x : Int),
      countOf (histLoop m l) x = countOf m x + l.count x := by
  induction l with
  | nil => intro m x; simp [histLoop]
  | cons v rest ih =>
      intro m x
      simp only [histLoop]
      rw [ih, countOf_bump]
      simp only [List.count_cons, beq_iff_eq]
      split_ifs <;> omega

theorem sumCounts_histLoop (l : List Int) :
    ∀ m : List (Int × Nat), sumCounts (histLoop m l) = sumCounts m + l.length := by
  induction l with
  | nil => intro m; simp [histLoop]
  | cons v rest ih =>
      intro m
      simp only [histLoop, List.length_cons]
      rw [ih, sumCounts_bump]
      omega

theorem keysOf_histAssoc (data : List Int) (x : Int) :
    x ∈ keysOf (histAssoc data) ↔ x ∈ data := by
  rw [histAssoc, keysOf_histLoop]
  simp [keysOf]

theorem nodup_keysOf_histAssoc (data : List Int) :
    (keysOf (histAssoc data)).Nodup :=
  nodup_keysOf_histLoop data [] (by simp [keysOf])

theorem countOf_histAssoc (data : List Int) (x : Int) :
    countOf (histAssoc data) x = data.count x := by
  rw [histAssoc, countOf_histLoop]
  simp [countOf, lookupC]

theorem sumCounts_histAssoc (data : List Int) :
    sumCounts (histAssoc data) = data.length := by
  rw [histAssoc, sumCounts_histLoop]
  simp [sumCounts]

theorem lookupC_isSome_iff (es : List (Int × Nat)) (x : Int) :
    (lookupC es x).isSome = true ↔ x ∈ keysOf es := by
  induction es with
  | nil => simp [lookupC, keysOf]
  | cons p rest ih =>
      obtain ⟨k', c⟩ := p
      by_cases h : k' = x
      · subst h; simp [lookupC, keysOf]
      · rw [show lookupC ((k', c) :: rest) x = lookupC rest x from by simp [lookupC, h]]
        rw [ih]
        simp only [keysOf, List.map_cons, List.mem_cons]
        constructor
        · exact Or.inr
        · rintro (h1 | h1)
          · exact absurd h1.symm h
          · exact h1

theorem lookupC_histAssoc_of_mem (data : List Int) (x : Int) (h : x ∈ data) :
    lookupC (histAssoc data) x = some (data.count x) := by
  have hs : (lookupC (histAssoc data) x).isSome = true :=
    (lookupC_isSome_iff _ _).mpr ((keysOf_histAssoc data x).mpr h)
  obtain ⟨c, hc⟩ := Option.isSome_iff_exists.mp hs
  have : countOf (histAssoc data) x = c := by simp [countOf, hc]
  rw [hc, ← countOf_histAssoc data x, this]

/-- Claim C4: after the counting phase, every key in the frequency map occurs
in the source sequence (and conversely), the count stored for each key of the
source equals that key's number of occurrences, and the counts sum to the
source length. -/
theorem histAssoc_wellFormed (data : List Int) :
    (∀ k, k ∈ keysOf (histAssoc data) ↔ k ∈ data) ∧
    (∀ k, k ∈ data → lookupC (histAssoc data) k = some (data.count k)) ∧
    sumCounts (histAssoc data) = data.length :=
  ⟨fun k => keysOf_histAssoc data k,
   fun k hk => lookupC_histAssoc_of_mem data k hk,
   sumCounts_histAssoc data⟩

/-- Witness for C4 on the sequence `[3, 3, 5]` at key 3. -/
theorem histAssoc_wellFormed_witness :
    (3 : Int) ∈ ([3, 3, 5] : List Int) ∧
    lookupC (histAssoc [3, 3, 5]) 3 = some (([3, 3, 5] : List Int).count 3) :=
  ⟨by decide, (histAssoc_wellFormed [3, 3, 5]).2.1 3 (by decide)⟩

/-! ### Helper lemmas: the reconstruction loops -/

/-- The sequence the reconstruction emits: for each (key, count) entry in
iteration order, `count` copies of the key. -/
def emitRuns (es : List (Int × Nat)) : List Int :=
  es.flatMap (fun p => List.replicate p.2 p.1)

/-- Occurrences of `x` accounted for by the entry list: the sum of the counts
stored under key `x`. -/
def sumFor (es : List (Int × Nat)) (x : Int) : Nat :=
  (es.map (fun p => if p.1 = x then p.2 else 0)).sum

theorem set_at_append (l₁ l₂ : List Int) (a b : Int) :
    (l₁ ++ a :: l₂).set l₁.length b = l₁ ++ b :: l₂ := by
  induction l₁ with
  | nil => rfl
  | cons x xs ih => simp [List.set, ih]

theorem writeRun_spec (k : Int) :
    ∀ (c : Nat) (pre suf : List Int), c ≤ suf.length →
      writeRun (pre ++ suf) pre.length k c =
        ((pre ++ List.replicate c k) ++ suf.drop c, pre.length + c, true) := by
  intro c
  induction c with
  | zero => intro pre suf _; simp [writeRun]
  | succ c ih =>
      intro pre suf h
      cases suf with
      | nil => simp at h
      | cons s0 suf' =>
          simp only [writeRun]
          rw [set_at_append, List.append_cons pre k suf',
            show pre.length + 1 = (pre ++ [k]).length by simp]
          have hc : c ≤ suf'.length := by
            simp only [List.length_cons] at h
            omega
          rw [ih (pre ++ [k]) suf' hc]
          simp only [List.drop_succ_cons, List.length_append, List.length_cons,
            List.length_replicate, List.replicate_succ]
          refine congrArg₂ Prod.mk ?_ (congrArg₂ Prod.mk ?_ ?_)
          · rw [List.append_cons pre k (List.replicate c k)]
          · simp
            omega
          · simp

theorem sumCounts_cons (k : Int) (c : Nat) (rest : List (Int × Nat)) :
    sumCounts ((k, c) :: rest) = c + sumCounts rest := by
  simp [sumCounts]

theorem writeEntries_spec :
    ∀ (es : List (Int × Nat)) (pre suf : List Int), sumCounts es ≤ suf.length →
      writeEntries (pre ++ suf) pre.length es =
        ((pre ++ emitRuns es) ++ suf.drop (sumCounts es),
          pre.length + sumCounts es, true) := by
  intro es
  induction es with
  | nil =>
      intro pre suf _
      simp [writeEntries, emitRuns, sumCounts]
  | cons p rest ih =>
      obtain ⟨k, c⟩ := p
      intro pre suf h
      rw [sumCounts_cons] at h
      simp only [writeEntries]
      rw [writeRun_spec k c pre suf (by omega)]
      rw [show pre.length + c = (pre ++ List.replicate c k).length by simp]
      rw [ih (pre ++ List.replicate c k) (suf.drop c) (by simp; omega)]
      simp only [List.drop_drop, List.length_append, List.length_replicate,
        Bool.true_and]
      refine congrArg₂ Prod.mk ?_ (congrArg₂ Prod.mk ?_ rfl)
      · rw [show emitRuns ((k, c) :: rest) = List.replicate c k ++ emitRuns rest from rfl]
        rw [sumCounts_cons, List.append_assoc pre]
      · rw [sumCounts_cons]
        omega

theorem histogramSort_eq_emitRuns (es : List (Int × Nat)) (data : List Int)
    (h : sumCounts es = data.length) :
    histogramSort es data = emitRuns es := by
  have h0 := writeEntries_spec es [] data (by omega)
  simp only [List.nil_append, List.length_nil] at h0
  rw [histogramSort, h0]
  rw [h, List.drop_length, List.append_nil]

theorem writeEntries_final (es : List (Int × Nat)) (data : List Int)
    (h : sumCounts es = data.length) :
    (writeEntries data 0 es).2.1 = data.length ∧
    (writeEntries data 0 es).2.2 = true := by
  have h0 := writeEntries_spec es [] data (by omega)
  simp only [List.nil_append, List.length_nil] at h0
  rw [h0]
  exact ⟨by simpa using h, rfl⟩

theorem count_emitRuns (es : List (Int × Nat)) (x : Int) :
    (emitRuns es).count x = sumFor es x := by
  induction es with
  | nil => simp [emitRuns, sumFor]
  | cons p rest ih =>
      obtain ⟨k, c⟩ := p
      rw [show emitRuns ((k, c) :: rest) = List.replicate c k ++ emitRuns rest from rfl]
      rw [List.count_append, ih]
      simp only [sumFor, List.map_cons, List.sum_cons, List.count_replicate]
      by_cases h : k = x
      · simp [h]
      · simp [h, fun hh : x = k => h hh.symm]

theorem sumFor_of_perm {es es' : List (Int × Nat)} (h : es.Perm es') (x : Int) :
    sumFor es x = sumFor es' x :=
  (h.map _).sum_eq

theorem sumCounts_of_perm {es es' : List (Int × Nat)} (h : es.Perm es') :
    sumCounts es = sumCounts es' :=
  (h.map _).sum_eq

theorem sumFor_bump (m : List (Int × Nat)) (k x : Int) :
    sumFor (bump m k) x = sumFor m x + (if k = x then 1 else 0) := by
  induction m with
  | nil =>
      by_cases h : k = x
      · subst h; simp [bump, sumFor]
      · simp [bump, sumFor, h]
  | cons p rest ih =>
      obtain ⟨k', c⟩ := p
      by_cases hk : k' = k
      · rw [show bump ((k', c) :: rest) k = (k', c + 1) :: rest from by
          simp [bump, hk]]
        simp only [sumFor, List.map_cons, List.sum_cons]
        rw [show (if k = x then 1 else 0) = (if k' = x then (1 : Nat) else 0) from by
          rw [hk]]
        split_ifs <;> omega
      · rw [show bump ((k', c) :: rest) k = (k', c) :: bump rest k from by
          simp [bump, hk]]
        simp only [sumFor, List.map_cons, List.sum_cons] at ih ⊢
        omega

theorem sumFor_histLoop (l : List Int) :
    ∀ (m : List (Int × Nat)) (x : Int),
      sumFor (histLoop m l) x = sumFor m x + l.count x := by
  induction l with
  | nil => intro m x; simp [histLoop]
  | cons v rest ih =>
      intro m x
      simp only [histLoop]
      rw [ih, sumFor_bump]
      simp only [List.count_cons, beq_iff_eq]
      split_ifs <;> omega

theorem sumFor_histAssoc (data : List Int) (x : Int) :
    sumFor (histAssoc data) x = data.count x := by
  rw [histAssoc, sumFor_histLoop]
  simp [sumFor]

/-- Claim C1: for every input sequence and every iteration order a map
abstraction may present the frequency entries in, `histogramSort` returns a
sequence of the same length with the same multiset of values (a permutation
of the input). -/
theorem histogramSort_is_permutation (data : List Int) (entries : List (Int × Nat))
    (hp : entries.Perm (histAssoc data)) :
    (histogramSort entries data).length = data.length ∧
    (histogramSort entries data).Perm data := by
  have hsum : sumCounts entries = data.length := by
    rw [sumCounts_of_perm hp, sumCounts_histAssoc]
  have heq := histogramSort_eq_emitRuns entries data hsum
  have hperm : (histogramSort entries data).Perm data := by
    rw [heq]
    refine List.perm_iff_count.mpr (fun x => ?_)
    rw [count_emitRuns, sumFor_of_perm hp, sumFor_histAssoc]
  exact ⟨hperm.length_eq, hperm⟩

/-- Witness for C1 on input `[5, 7, 5]` with the iteration order that lists
key 7 before key 5. -/
theorem histogramSort_is_permutation_witness :
    (histogramSort [(7, 1), (5, 2)] [5, 7, 5]).length = ([5, 7, 5] : List Int).length ∧
    (histogramSort [(7, 1), (5, 2)] [5, 7, 5]).Perm [5, 7, 5] :=
  histogramSort_is_permutation [5, 7, 5] [(7, 1), (5, 2)] (by decide)

/-- Claim C8: during reconstruction, every write `data[index++] = key` happens
at an index strictly below the input length (the recorded in-bounds flag is
true), and the final index equals the input length exactly. -/
theorem histogramSort_writes_in_bounds (data : List Int) (entries : List (Int × Nat))
    (hp : entries.Perm (histAssoc data)) :
    (writeEntries data 0 entries).2.2 = true ∧
    (writeEntries data 0 entries).2.1 = data.length := by
  have hsum : sumCounts entries = data.length := by
    rw [sumCounts_of_perm hp, sumCounts_histAssoc]
  have h := writeEntries_final entries data hsum
  exact ⟨h.2, h.1⟩

/-- Witness for C8 on input `[3, 3, 5]` with the iteration order that lists
key 5 before key 3. -/
theorem histogramSort_writes_in_bounds_witness :
    (writeEntries [3, 3, 5] 0 [(5, 1), (3, 2)]).2.2 = true ∧
    (writeEntries [3, 3, 5] 0 [(5, 1), (3, 2)]).2.1 = ([3, 3, 5] : List Int).length :=
  histogramSort_writes_in_bounds [3, 3, 5] [(5, 1), (3, 2)] (by decide)

/-! ### Helper lemmas: grouping of equal keys (claim C6) -/

/-- All copies of each value are contiguous: whenever two positions hold the
same value, every position between them holds that value too. -/
def EqualKeysContiguous (l : List Int) : Prop :=
  ∀ i t j, i ≤ t → t ≤ j → j < l.length →
    l.getD i 0 = l.getD j 0 → l.getD t 0 = l.getD i 0

theorem getD_append_of_lt (l₁ l₂ : List Int) (n : Nat) (h : n < l₁.length) :
    (l₁ ++ l₂).getD n 0 = l₁.getD n 0 := by
  rw [List.getD_eq_getElem _ _ (by simp only [List.length_append]; omega),
    List.getD_eq_getElem _ _ h, List.getElem_append_left h]

theorem getD_append_of_le (l₁ l₂ : List Int) (n : Nat) (h1 : l₁.length ≤ n)
    (h2 : n < l₁.length + l₂.length) :
    (l₁ ++ l₂).getD n 0 = l₂.getD (n - l₁.length) 0 := by
  rw [List.getD_eq_getElem _ _ (by simp only [List.length_append]; omega),
    List.getD_eq_getElem _ _ (by omega), List.getElem_append_right h1]

theorem getD_replicate_of_lt (c : Nat) (k : Int) (n : Nat) (h : n < c) :
    (List.replicate c k).getD n 0 = k := by
  rw [List.getD_eq_getElem _ _ (by simp only [List.length_replicate]; omega)]
  exact List.getElem_replicate ..

theorem mem_keysOf_of_mem_emitRuns (es : List (Int × Nat)) (x : Int)
    (h : x ∈ emitRuns es) : x ∈ keysOf es := by
  induction es with
  | nil => cases h
  | cons p rest ih =>
      obtain ⟨k, c⟩ := p
      rw [show emitRuns ((k, c) :: rest) = List.replicate c k ++ emitRuns rest from rfl]
        at h
      rcases List.mem_append.mp h with h1 | h1
      · rw [List.eq_of_mem_replicate h1]
        simp [keysOf]
      · simp only [keysOf, List.map_cons, List.mem_cons]
        exact Or.inr (ih h1)

theorem emitRuns_contiguous :
    ∀ es : List (Int × Nat), (keysOf es).Nodup → EqualKeysContiguous (emitRuns es) := by
  intro es
  induction es with
  | nil =>
      intro _ i t j _ _ hj _
      simp [emitRuns] at hj
  | cons p rest ih =>
      obtain ⟨k, c⟩ := p
      intro hnd i t j hit htj hj heq
      have hnd' : (keysOf rest).Nodup := by
        simp only [keysOf, List.map_cons, List.nodup_cons] at hnd
        exact hnd.2
      have hkn : k ∉ keysOf rest := by
        simp only [keysOf, List.map_cons, List.nodup_cons] at hnd
        exact hnd.1
      have hce : emitRuns ((k, c) :: rest) = List.replicate c k ++ emitRuns rest := rfl
      rw [hce] at hj ⊢
      rw [hce] at heq
      simp only [List.length_append, List.length_replicate] at hj
      by_cases hjc : j < c
      · -- all three positions lie inside the leading run of `k`
        rw [getD_append_of_lt _ _ i (by simp only [List.length_replicate]; omega),
          getD_append_of_lt _ _ t (by simp only [List.length_replicate]; omega),
          getD_replicate_of_lt c k i (by omega), getD_replicate_of_lt c k t (by omega)]
      · by_cases hic : i < c
        · -- the endpoints straddle the boundary: impossible, the left value is
          -- `k` and the right value is a key of `rest`, but keys are distinct
          exfalso
          rw [getD_append_of_lt _ _ i (by simp only [List.length_replicate]; omega),
            getD_replicate_of_lt c k i hic,
            getD_append_of_le _ _ j (by simp only [List.length_replicate]; omega)
              (by simp only [List.length_replicate, List.length_append] at hj ⊢; omega)]
            at heq
        -- the right-hand value is an element of `emitRuns rest`
          have hmem : (emitRuns rest).getD (j - (List.replicate c k).length) 0 ∈
              emitRuns rest := by
            rw [List.getD_eq_getElem _ _ (by simp only [List.length_replicate]; omega)]
            exact List.getElem_mem ..
          rw [← heq] at hmem
          exact hkn (mem_keysOf_of_mem_emitRuns rest k hmem)
        · -- all three positions lie inside `emitRuns rest`
          have hi' := getD_append_of_le (List.replicate c k) (emitRuns rest) i
            (by simp only [List.length_replicate]; omega)
            (by simp only [List.length_replicate]; omega)
          have ht' := getD_append_of_le (List.replicate c k) (emitRuns rest) t
            (by simp only [List.length_replicate]; omega)
            (by simp only [List.length_replicate]; omega)
          have hj' := getD_append_of_le (List.replicate c k) (emitRuns rest) j
            (by simp only [List.length_replicate]; omega)
            (by simp only [List.length_replicate]; omega)
          rw [hi', hj'] at heq
          rw [ht', hi']
          simp only [List.length_replicate] at heq ⊢
          exact ih hnd' (i - c) (t - c) (j - c) (by omega) (by omega) (by omega) heq

/-- Claim C6: for every input and every iteration order the map abstraction
may use, the output of `histogramSort` is the concatenation, in the map's
iteration order, of one run per distinct key (`count` copies of the key), so
equal keys are contiguous; and the output is not guaranteed sorted by key
value, as the valid iteration order `[(1,1),(0,1)]` for input `[0,1]` shows. -/
theorem histogramSort_groups_keys :
    (∀ (data : List Int) (entries : List (Int × Nat)),
        entries.Perm (histAssoc data) →
        histogramSort entries data = emitRuns entries ∧
        (keysOf entries).Nodup ∧
        EqualKeysContiguous (histogramSort entries data)) ∧
    ([(1, 1), (0, 1)] : List (Int × Nat)).Perm (histAssoc [0, 1]) ∧
    histogramSort [(1, 1), (0, 1)] [0, 1] = [1, 0] ∧
    ¬ List.Sorted (· ≤ ·) (histogramSort [(1, 1), (0, 1)] [0, 1]) := by
  refine ⟨?_, by decide, by decide, by decide⟩
  intro data entries hp
  have hsum : sumCounts entries = data.length := by
    rw [sumCounts_of_perm hp, sumCounts_histAssoc]
  have heq := histogramSort_eq_emitRuns entries data hsum
  have hnd : (keysOf entries).Nodup :=
    (List.Perm.nodup_iff (hp.map Prod.fst)).mpr (nodup_keysOf_histAssoc data)
  refine ⟨heq, hnd, ?_⟩
  rw [heq]
  exact emitRuns_contiguous entries hnd

/-- Witness for C6 on input `[0, 5, 5]` with the iteration order that lists
key 5 before key 0. -/
theorem histogramSort_groups_keys_witness :
    histogramSort [(5, 2), (0, 1)] [0, 5, 5] = emitRuns [(5, 2), (0, 1)] ∧
    (keysOf [(5, 2), (0, 1)]).Nodup ∧
    EqualKeysContiguous (histogramSort [(5, 2), (0, 1)] [0, 5, 5]) :=
  histogramSort_groups_keys.1 [0, 5, 5] [(5, 2), (0, 1)] (by decide)

/-! ### Helper lemmas: the random-access measured loop -/

theorem mapFind_mapInsert_self (m : List (Int × Int)) (k v : Int) :
    mapFind (mapInsert m k v) k = some v := by
  induction m with
  | nil => simp [mapInsert, mapFind]
  | cons p rest ih =>
      obtain ⟨k', v'⟩ := p
      by_cases h : k' = k
      · simp [mapInsert, mapFind, h]
      · simp [mapInsert, mapFind, h, ih]

theorem mapFind_mapInsert_isSome (m : List (Int × Int)) (k v x : Int)
    (h : (mapFind m x).isSome = true) :
    (mapFind (mapInsert m k v) x).isSome = true := by
  induction m with
  | nil => simp [mapFind] at h
  | cons p rest ih =>
      obtain ⟨k', v'⟩ := p
      by_cases hk : k' = k
      · subst hk
        by_cases hx : k' = x
        · simp [mapInsert, mapFind, hx]
        · simp only [mapFind, if_neg hx] at h
          simp [mapInsert, mapFind, hx, h]
      · by_cases hx : k' = x
        · have hxk : ¬ x = k := fun hh => hk (hx.trans hh)
          simp [mapInsert, mapFind, hk, hx, hxk]
        · simp only [mapFind, if_neg hx] at h
          simp [mapInsert, mapFind, hk, hx, ih h]

theorem mapFind_insertLoop_isSome (l : List Int) :
    ∀ (m : List (Int × Int)) (x : Int), x ∈ l ∨ (mapFind m x).isSome = true →
      (mapFind (l.foldl (fun m v => mapInsert m v v) m) x).isSome = true := by
  induction l with
  | nil =>
      intro m x h
      rcases h with h | h
      · cases h
      · simpa using h
  | cons v rest ih =>
      intro m x h
      simp only [List.foldl_cons]
      refine ih (mapInsert m v v) x ?_
      rcases h with h | h
      · rcases List.mem_cons.mp h with h1 | h1
        · subst h1
          exact Or.inr (by rw [mapFind_mapInsert_self]; rfl)
        · exact Or.inl h1
      · exact Or.inr (mapFind_mapInsert_isSome m v v x h)

theorem mapFind_buildMap_isSome (data : List Int) (x : Int) (h : x ∈ data) :
    (mapFind (buildMap data) x).isSome = true :=
  mapFind_insertLoop_isSome data [] x (Or.inl h)

theorem cursorAfter_mod (n : Nat) (hn : 0 < n) : ∀ k, cursorAfter n k = k % n := by
  intro k
  induction k with
  | zero => simp [cursorAfter]
  | succ k ih =>
      have hr : k % n < n := Nat.mod_lt _ hn
      obtain ⟨q, hq⟩ : ∃ q, k = n * q + k % n :=
        ⟨k / n, by rw [Nat.div_add_mod]⟩
      simp only [cursorAfter, ih, advanceCursor]
      by_cases hwrap : k % n + 1 ≥ n
      · have hkn : k + 1 = n * q + n := by omega
        rw [if_pos hwrap, hkn, ← Nat.mul_succ, Nat.mul_mod_right]
      · have hlt : k % n + 1 < n := by omega
        rw [if_neg hwrap]
        have h2 : (k + 1) % n = (n * q + (k % n + 1)) % n := by
          rw [show n * q + (k % n + 1) = k + 1 from by omega]
        rw [h2, Nat.mul_add_mod, Nat.mod_eq_of_lt hlt]

/-- Claim C2: with `N > 0` populated keys and a lookup sequence that is a
permutation of the populating data, the key read at every iteration of the
measured loop is found in the map — every lookup is a hit. -/
theorem randomAccess_all_hits (data lookups : List Int)
    (hn : 0 < data.length) (hp : lookups.Perm data) :
    ∀ t : Nat, (mapFind (buildMap data) (measuredKey lookups t)).isSome = true := by
  intro t
  have hlen : lookups.length = data.length := hp.length_eq
  have hcur : cursorAfter lookups.length t < lookups.length := by
    rw [cursorAfter_mod lookups.length (by omega) t]
    exact Nat.mod_lt _ (by omega)
  have hkey : measuredKey lookups t ∈ lookups := by
    rw [measuredKey, List.getD_eq_getElem _ _ hcur]
    exact List.getElem_mem ..
  exact mapFind_buildMap_isSome data _ (hp.mem_iff.mp hkey)

/-- Witness for C2: populate with `[4, 9]`, look keys up in the shuffled
order `[9, 4]`, at iteration 3. -/
theorem randomAccess_all_hits_witness :
    (mapFind (buildMap [4, 9]) (measuredKey [9, 4] 3)).isSome = true :=
  randomAccess_all_hits [4, 9] [9, 4] (by decide) (by decide) 3

/-- Claim C7: for `N > 0`, after `k` iterations of the measured loop the
cursor equals `k % N`, hence always stays in `[0, N)`; each iteration
advances it by one, wrapping to 0 after the last element, for an arbitrary
framework-chosen number of iterations `k`. -/
theorem cursor_stays_in_range (n : Nat) (hn : 0 < n) :
    ∀ k, cursorAfter n k = k % n ∧ cursorAfter n k < n ∧
      cursorAfter n (k + 1) = advanceCursor n (cursorAfter n k) := by
  intro k
  refine ⟨cursorAfter_mod n hn k, ?_, rfl⟩
  rw [cursorAfter_mod n hn k]
  exact Nat.mod_lt _ hn

/-- Witness for C7 at `N = 3` after 7 iterations. -/
theorem cursor_stays_in_range_witness :
    cursorAfter 3 7 = 7 % 3 ∧ cursorAfter 3 7 < 3 ∧
      cursorAfter 3 8 = advanceCursor 3 (cursorAfter 3 7) :=
  cursor_stays_in_range 3 (by decide) 7

end Bench
